import Mathlib

/-!
Formal model of the signature/docstring extraction engine of
`files-to-prompt` (`src/files_to_prompt/cli.py`).

Strings are modelled as `List Char`.  The Python string helpers used by the
code (`str.lstrip`, `str.rstrip`, `str.strip` truthiness, `str.splitlines`,
`str.find`, slicing, `'\n'.join`) are given faithful executable models, and
the three core functions `get_signature`, `normalize_docstring` and
`extract_signatures_and_docstrings` are translated line by line.

The fallible front end of the orchestrator (reading the file from disk and
`ast.parse`) is Python library code; it is modelled as an `Except` input:
`Except.error e` stands for any exception raised while reading or parsing
(carrying the text of `str(e)`), and `Except.ok (source, body)` carries the
raw file text together with the parsed module body.  `ast.get_docstring` is
likewise library code; a declaration's docstring is carried as an
`Option (List Char)` field holding the value `ast.get_docstring` returns.
-/

namespace FilesToPrompt

/-- Whitespace predicate matching Python `str.strip` / `str.isspace`
on the ASCII range (source lines have already had tabs expanded, but
docstrings may still contain any of these characters). -/
def pyIsSpace (c : Char) : Bool :=
  c == ' ' || c == '\t' || c == '\n' || c == '\r' || c == '\x0b' || c == '\x0c'

/-- Python `str.lstrip()`: drop leading whitespace. -/
def lstrip (s : List Char) : List Char := s.dropWhile pyIsSpace

/-- Python `str.rstrip()`: drop trailing whitespace. -/
def rstrip (s : List Char) : List Char := (s.reverse.dropWhile pyIsSpace).reverse

/-- Python `str.strip()`: drop whitespace on both ends. -/
def pyStrip (s : List Char) : List Char := lstrip (rstrip s)

/-- Leading-whitespace width of a line: `len(line) - len(line.lstrip())`. -/
def indentOf (s : List Char) : Nat := s.length - (lstrip s).length

/-- Python falsiness of `line.strip()`: the line is empty or all whitespace. -/
def isBlank (s : List Char) : Bool := (pyStrip s).isEmpty

/-- Line-boundary characters recognised by the model of `str.splitlines`. -/
def isNewlineChar (c : Char) : Bool := c == '\n' || c == '\r'

/-- Accumulator worker for `splitlines`; `acc` holds the current line reversed.
A `\r\n` pair counts as a single boundary. -/
def splitlinesAux : List Char → List Char → List (List Char)
  | [], acc => if acc.isEmpty then [] else [acc.reverse]
  | '\r' :: '\n' :: rest, acc => acc.reverse :: splitlinesAux rest []
  | '\r' :: rest, acc => acc.reverse :: splitlinesAux rest []
  | '\n' :: rest, acc => acc.reverse :: splitlinesAux rest []
  | c :: rest, acc => splitlinesAux rest (c :: acc)

/-- Python `str.splitlines()` over the `\n`, `\r`, `\r\n` boundaries:
a trailing boundary does not produce a final empty line, and the empty
string yields no lines. -/
def splitlines (s : List Char) : List (List Char) := splitlinesAux s []

/-- `'\n'.join` of a list of lines. -/
def joinLines (lines : List (List Char)) : List Char :=
  List.intercalate ['\n'] lines

/-- Python `signature_lines[-1].rstrip().endswith(':')`. -/
def endsColon (s : List Char) : Bool := (rstrip s).getLast? == some ':'

/-- Re-indentation applied to one continuation line of a multi-line header,
from the body of the `while` loop of `get_signature`: when
`parent_indentation > 0`, find the first `(` in the stripped first line
(`str.find` returns the index, `-1` if absent — modelled by `findIdx`,
which returns the length if absent) and align one column past it,
falling back to `parent_indentation + 4` when there is no `(`. -/
def reindentContinuation (parent_indentation : Nat) (first_line next_line : List Char) :
    List Char :=
  if 0 < parent_indentation then
    let first_line_stripped := lstrip first_line
    let paren_pos := first_line_stripped.findIdx (fun c => c == '(')
    if paren_pos < first_line_stripped.length then
      let align_pos := parent_indentation + paren_pos + 1
      List.replicate align_pos ' ' ++ lstrip next_line
    else
      List.replicate (parent_indentation + 4) ' ' ++ lstrip next_line
  else
    next_line

/-- The `while not signature_lines[-1].rstrip().endswith(':')` loop of
`get_signature`: `last` is the previously appended (already re-indented)
line, the list argument holds the source lines not yet scanned; the loop
stops when the last appended line ends with `:` or at end of file. -/
def sigContinuations (parent_indentation : Nat) (first_line last : List Char) :
    List (List Char) → List (List Char)
  | [] => []
  | next :: rest =>
    if endsColon last then []
    else
      let nl := reindentContinuation parent_indentation first_line next
      nl :: sigContinuations parent_indentation first_line nl rest

/-- The first signature line: `' ' * parent_indentation + line.lstrip()` when
the declaration is a method (`parent_indentation > 0`), the raw line
otherwise. -/
def firstSigLine (parent_indentation : Nat) (line : List Char) : List Char :=
  if 0 < parent_indentation then
    List.replicate parent_indentation ' ' ++ lstrip line
  else line

/-- Model of `get_signature(node, parent_indentation)`: `lineno` is the
1-based AST line number of the declaration.  The AST guarantees the index
is in range; the model totalises the lookup with an empty default, and
the theorems about it carry an in-range hypothesis. -/
def get_signature (source_lines : List (List Char)) (lineno : Nat)
    (parent_indentation : Nat) : List Char :=
  let line_index := lineno - 1
  let line := source_lines.getD line_index []
  let first_line := firstSigLine parent_indentation line
  let signature_lines :=
    first_line ::
      sigContinuations parent_indentation first_line first_line
        (source_lines.drop (line_index + 1))
  joinLines signature_lines

/-- The minimum-indentation computation of `normalize_docstring`:
`min_indent` starts at infinity, is lowered over the non-blank lines after
the first, and is `0` when every such line is blank. -/
def min_indent_of (tail : List (List Char)) : Nat :=
  match (tail.filter (fun l => !(isBlank l))).map indentOf with
  | [] => 0
  | x :: xs => xs.foldl Nat.min x

/-- Model of `normalize_docstring(docstring, indentation)`.  An empty
docstring is Python-falsy and yields `None`; a single-line docstring is
returned unchanged; a multi-line docstring keeps its first line, strips the
common minimum indentation from later non-blank lines and re-indents them
to `indentation` spaces, turns blank lines into empty lines, and joins with
newlines.  (The `[]` branch of the match is unreachable: a non-empty string
always yields at least one line.) -/
def normalize_docstring (docstring : List Char) (indentation : Nat) :
    Option (List Char) :=
  if docstring.isEmpty then none
  else
    match splitlines docstring with
    | [] => some docstring
    | [_] => some docstring
    | first :: next :: rest =>
      let tail := next :: rest
      let min_indent := min_indent_of tail
      let normalized :=
        first :: tail.map (fun line =>
          if !(isBlank line) then
            List.replicate indentation ' ' ++ line.drop min_indent
          else [])
      some (joinLines normalized)

/-- Statements of the parsed module, as far as the extractor distinguishes
them.  The `docstring` fields carry the value of `ast.get_docstring` for the
node; the `body` of a function, async function or `other` statement is
carried but never descended into by the extractor, matching the code. -/
inductive PyStmt : Type where
  | functionDef (lineno : Nat) (docstring : Option (List Char)) (body : List PyStmt)
  | asyncFunctionDef (lineno : Nat) (docstring : Option (List Char)) (body : List PyStmt)
  | classDef (lineno : Nat) (docstring : Option (List Char)) (body : List PyStmt)
  | other (body : List PyStmt)

/-- Python truthiness of the `Optional[str]` returned by `ast.get_docstring`:
`None` and the empty string are falsy. -/
def docTruthy : Option (List Char) → Bool
  | some d => !d.isEmpty
  | none => false

/-- Rendering of an `Optional[str]` inside an f-string (`None` prints as
`"None"`); only the `some` branch is reachable from the orchestrator. -/
def strOfOpt : Option (List Char) → List Char
  | some s => s
  | none => "None".toList

/-- The `\"\"\"` delimiter wrapped around a rendered docstring. -/
def tripleQuote : List Char := "\"\"\"".toList

/-- The `for item in node.body` loop of the orchestrator's `ClassDef`
branch: only plain `FunctionDef` children produce a method block, rendered
with a 4-space header and an 8-space docstring wrapper. -/
def processClassItem (source_lines : List (List Char)) : PyStmt → List (List Char)
  | .functionDef lineno doc _ =>
    let method_sig := get_signature source_lines lineno 4
    if docTruthy doc then
      [method_sig ++ ('\n' :: List.replicate 8 ' ') ++ tripleQuote ++
        strOfOpt (normalize_docstring (doc.getD []) 8) ++ tripleQuote]
    else
      [method_sig]
  | _ => []

/-- The `for node in module.body` loop of the orchestrator: a top-level
`FunctionDef` or `ClassDef` produces one block (header at depth 0, docstring
wrapper at 4 spaces); a `ClassDef` additionally appends one block per direct
method; every other statement produces nothing. -/
def processStmt (source_lines : List (List Char)) : PyStmt → List (List Char)
  | .functionDef lineno doc _ =>
    let signature := get_signature source_lines lineno 0
    if docTruthy doc then
      [signature ++ ('\n' :: List.replicate 4 ' ') ++ tripleQuote ++
        strOfOpt (normalize_docstring (doc.getD []) 4) ++ tripleQuote]
    else
      [signature]
  | .classDef lineno doc body =>
    let class_sig := get_signature source_lines lineno 0
    let class_entry :=
      if docTruthy doc then
        class_sig ++ ('\n' :: List.replicate 4 ' ') ++ tripleQuote ++
          strOfOpt (normalize_docstring (doc.getD []) 4) ++ tripleQuote
      else class_sig
    class_entry :: body.flatMap (processClassItem source_lines)
  | .asyncFunctionDef _ _ _ => []
  | .other _ => []

/-- Assembly of the success path of the orchestrator:
`"\n\n".join(results)`. -/
def extract_body (source_lines : List (List Char)) (module_body : List PyStmt) :
    List Char :=
  List.intercalate ("\n\n".toList) (module_body.flatMap (processStmt source_lines))

/-- Python `source.replace('\t', '    ')`. -/
def expandTabs : List Char → List Char
  | [] => []
  | c :: rest =>
    if c == '\t' then "    ".toList ++ expandTabs rest else c :: expandTabs rest

/-- The diagnostic string of the `except` clause:
`f"Error extracting signatures from {file_path}: {str(e)}"`. -/
def errorMessage (file_path msg : List Char) : List Char :=
  "Error extracting signatures from ".toList ++ file_path ++ ": ".toList ++ msg

/-- Model of `extract_signatures_and_docstrings(file_path)`.  The fallible
read-and-parse front end is the `Except` argument; on success the raw text
is tab-expanded and split into lines exactly as in the code, and the module
body is walked; on failure the diagnostic string is returned as ordinary
output. -/
def extract_signatures_and_docstrings (file_path : List Char)
    (parsed : Except (List Char) (List Char × List PyStmt)) : List Char :=
  match parsed with
  | .error e => errorMessage file_path e
  | .ok (source, module_body) =>
    let src := expandTabs source
    let source_lines := splitlines src
    extract_body source_lines module_body

/-- Shortest prefix of a list through the first element satisfying `p`
(the whole list when no element does); used to characterise the scanning
loop of `get_signature`. -/
def takeThrough {α : Type} (p : α → Bool) : List α → List α
  | [] => []
  | x :: xs => x :: (if p x then [] else takeThrough p xs)

/-- Documentation normalizer for multi-line documentation exactly as the
specification words it (C6): keep the first line verbatim; let `m` be the
minimum leading-whitespace width over non-empty lines after the first
(zero when every line after the first is empty); replace each subsequent
non-empty line with the target indentation in spaces followed by the line
with its first `m` characters removed; replace each subsequent empty line
with the empty string; join with newline separators. -/
def normalize_docstring_spec (docstring : List Char) (indentation : Nat) :
    List Char :=
  let lines := splitlines docstring
  let tail := lines.drop 1
  let m := (((tail.filter (fun l => !(isBlank l))).map indentOf).min?).getD 0
  joinLines (lines.take 1 ++ tail.map (fun line =>
    if isBlank line then []
    else List.replicate indentation ' ' ++ line.drop m))

/-- The method renderer with explicit header and docstring depths; the code
inlines the constants 4 and 8. -/
def processClassItemDepths (method_header_depth method_doc_depth : Nat)
    (source_lines : List (List Char)) : PyStmt → List (List Char)
  | .functionDef lineno doc _ =>
    let method_sig := get_signature source_lines lineno method_header_depth
    if docTruthy doc then
      [method_sig ++ ('\n' :: List.replicate method_doc_depth ' ') ++ tripleQuote ++
        strOfOpt (normalize_docstring (doc.getD []) method_doc_depth) ++ tripleQuote]
    else
      [method_sig]
  | _ => []

/-- The module-level renderer with explicit depths for top-level headers,
top-level docstring wrappers, method headers and method docstring wrappers;
the code inlines the constants 0, 4, 4 and 8. -/
def processStmtDepths
    (top_header_depth top_doc_depth method_header_depth method_doc_depth : Nat)
    (source_lines : List (List Char)) : PyStmt → List (List Char)
  | .functionDef lineno doc _ =>
    let signature := get_signature source_lines lineno top_header_depth
    if docTruthy doc then
      [signature ++ ('\n' :: List.replicate top_doc_depth ' ') ++ tripleQuote ++
        strOfOpt (normalize_docstring (doc.getD []) top_doc_depth) ++ tripleQuote]
    else
      [signature]
  | .classDef lineno doc body =>
    let class_sig := get_signature source_lines lineno top_header_depth
    let class_entry :=
      if docTruthy doc then
        class_sig ++ ('\n' :: List.replicate top_doc_depth ' ') ++ tripleQuote ++
          strOfOpt (normalize_docstring (doc.getD []) top_doc_depth) ++ tripleQuote
      else class_sig
    class_entry ::
      body.flatMap (processClassItemDepths method_header_depth method_doc_depth
        source_lines)
  | .asyncFunctionDef _ _ _ => []
  | .other _ => []

/-- Assembly of the depth-parameterized rendering. -/
def extract_bodyDepths
    (top_header_depth top_doc_depth method_header_depth method_doc_depth : Nat)
    (source_lines : List (List Char)) (module_body : List PyStmt) : List Char :=
  List.intercalate ("\n\n".toList)
    (module_body.flatMap (processStmtDepths top_header_depth top_doc_depth
      method_header_depth method_doc_depth source_lines))

/-- A declaration as the Declaration Locator reports it: a top-level
function, a class, or a direct method of a class — with its line number and
docstring. -/
inductive Decl : Type where
  | topFunction (lineno : Nat) (docstring : Option (List Char))
  | classDecl (lineno : Nat) (docstring : Option (List Char))
  | method (lineno : Nat) (docstring : Option (List Char))

/-- Direct methods of a class body, in class-body order (spec §4.1): function
declarations that are direct children of the class body; nothing else, and
no descent into their bodies. -/
def classMethods : List PyStmt → List Decl
  | [] => []
  | .functionDef l d _ :: rest => .method l d :: classMethods rest
  | _ :: rest => classMethods rest

/-- The Declaration Locator (spec §4.1): the ordered top-level function and
class declarations, each class immediately followed by its direct methods;
no descent into nested functions, nested classes, or top-level control-flow
blocks. -/
def declarationList : List PyStmt → List Decl
  | [] => []
  | .functionDef l d _ :: rest => .topFunction l d :: declarationList rest
  | .classDef l d body :: rest =>
    .classDecl l d :: (classMethods body ++ declarationList rest)
  | _ :: rest => declarationList rest

/-- Rendering of one located declaration at the fixed depths of the code:
header at 0 and docstring wrapper at 4 for top-level declarations, header at
4 and docstring wrapper at 8 for methods. -/
def renderDecl (source_lines : List (List Char)) : Decl → List Char
  | .topFunction lineno doc =>
    let signature := get_signature source_lines lineno 0
    if docTruthy doc then
      signature ++ ('\n' :: List.replicate 4 ' ') ++ tripleQuote ++
        strOfOpt (normalize_docstring (doc.getD []) 4) ++ tripleQuote
    else signature
  | .classDecl lineno doc =>
    let class_sig := get_signature source_lines lineno 0
    if docTruthy doc then
      class_sig ++ ('\n' :: List.replicate 4 ' ') ++ tripleQuote ++
        strOfOpt (normalize_docstring (doc.getD []) 4) ++ tripleQuote
    else class_sig
  | .method lineno doc =>
    let method_sig := get_signature source_lines lineno 4
    if docTruthy doc then
      method_sig ++ ('\n' :: List.replicate 8 ' ') ++ tripleQuote ++
        strOfOpt (normalize_docstring (doc.getD []) 8) ++ tripleQuote
    else method_sig

/-! ### Basic facts about the string helpers -/

theorem takeWhile_append_lstrip (s : List Char) :
    s.takeWhile pyIsSpace ++ lstrip s = s :=
  List.takeWhile_append_dropWhile _ _

theorem length_lstrip_le (s : List Char) : (lstrip s).length ≤ s.length := by
  have h := congrArg List.length (takeWhile_append_lstrip s)
  simp only [List.length_append] at h
  omega

theorem indentOf_eq_takeWhile_length (s : List Char) :
    indentOf s = (s.takeWhile pyIsSpace).length := by
  have h := congrArg List.length (takeWhile_append_lstrip s)
  simp only [List.length_append] at h
  unfold indentOf
  omega

theorem indentOf_le_length (s : List Char) : indentOf s ≤ s.length := by
  unfold indentOf
  omega

theorem dropWhile_append_of_all {p : Char → Bool} {a b : List Char}
    (h : ∀ c ∈ a, p c = true) :
    (a ++ b).dropWhile p = b.dropWhile p := by
  rw [List.dropWhile_append]
  have ha : a.dropWhile p = [] := List.dropWhile_eq_nil_iff.mpr h
  simp [ha]

theorem pyIsSpace_space : pyIsSpace ' ' = true := rfl

theorem lstrip_replicate_space_append (i : Nat) (s : List Char) :
    lstrip (List.replicate i ' ' ++ s) = lstrip s :=
  dropWhile_append_of_all fun c hc => by
    rw [List.eq_of_mem_replicate hc]; rfl

theorem lstrip_lstrip (s : List Char) : lstrip (lstrip s) = lstrip s := by
  induction s with
  | nil => rfl
  | cons c cs ih =>
    by_cases h : pyIsSpace c = true
    · have hc : lstrip (c :: cs) = lstrip cs := by
        unfold lstrip; rw [List.dropWhile_cons, if_pos h]
      rw [hc]; exact ih
    · have hc : lstrip (c :: cs) = c :: cs := by
        unfold lstrip; rw [List.dropWhile_cons, if_neg h]
      rw [hc]; exact hc

theorem lstrip_drop (s : List Char) (m : Nat) (hm : m ≤ indentOf s) :
    lstrip (s.drop m) = lstrip s := by
  conv_lhs => rw [← takeWhile_append_lstrip s]
  rw [List.drop_append_eq_append_drop]
  have hlen : m ≤ (s.takeWhile pyIsSpace).length := by
    rw [← indentOf_eq_takeWhile_length]; exact hm
  rw [Nat.sub_eq_zero_of_le hlen, List.drop_zero]
  have hall : ∀ c ∈ (s.takeWhile pyIsSpace).drop m, pyIsSpace c = true :=
    fun c hc => List.mem_takeWhile_imp (List.mem_of_mem_drop hc)
  show lstrip _ = _
  unfold lstrip
  rw [dropWhile_append_of_all hall]
  exact lstrip_lstrip s

theorem indentOf_drop {s : List Char} {m : Nat} (hm : m ≤ indentOf s) :
    indentOf (s.drop m) = indentOf s - m := by
  have h1 := lstrip_drop s m hm
  have h2 := length_lstrip_le s
  have h3 := indentOf_le_length s
  unfold indentOf at *
  rw [h1, List.length_drop]
  omega

theorem indentOf_replicate_space_append (i : Nat) (s : List Char) :
    indentOf (List.replicate i ' ' ++ s) = i + indentOf s := by
  have h1 := lstrip_replicate_space_append i s
  have h2 := length_lstrip_le s
  unfold indentOf at *
  rw [h1]
  simp only [List.length_append, List.length_replicate]
  omega

theorem drop_replicate_space_append (i : Nat) (s : List Char) :
    (List.replicate i ' ' ++ s).drop i = s := by
  simp

theorem isBlank_iff_all (s : List Char) :
    isBlank s = true ↔ ∀ c ∈ s, pyIsSpace c = true := by
  constructor
  · intro h c hc
    unfold isBlank pyStrip lstrip rstrip at h
    rw [List.isEmpty_iff, List.dropWhile_eq_nil_iff] at h
    have hc' : c ∈ s.reverse := List.mem_reverse.mpr hc
    rw [← List.takeWhile_append_dropWhile pyIsSpace s.reverse] at hc'
    rcases List.mem_append.mp hc' with h1 | h2
    · exact List.mem_takeWhile_imp h1
    · exact h _ (List.mem_reverse.mpr h2)
  · intro h
    unfold isBlank pyStrip lstrip rstrip
    have h1 : s.reverse.dropWhile pyIsSpace = [] :=
      List.dropWhile_eq_nil_iff.mpr fun c hc => h c (List.mem_reverse.mp hc)
    simp [h1]

theorem lstrip_ne_nil_of_not_blank {s : List Char} (h : isBlank s = false) :
    lstrip s ≠ [] := by
  intro hn
  have hall : ∀ c ∈ s, pyIsSpace c = true := List.dropWhile_eq_nil_iff.mp hn
  rw [← isBlank_iff_all] at hall
  rw [hall] at h
  cases h

theorem indentOf_lt_length_of_not_blank {s : List Char} (h : isBlank s = false) :
    indentOf s < s.length := by
  have h1 := lstrip_ne_nil_of_not_blank h
  have h2 := length_lstrip_le s
  have h3 : 0 < (lstrip s).length := List.length_pos.mpr h1
  unfold indentOf
  omega

theorem isBlank_of_all {s : List Char} (h : ∀ c ∈ s, pyIsSpace c = true) :
    isBlank s = true := (isBlank_iff_all s).mpr h

theorem not_blank_replicate_drop {l : List Char} (i m : Nat)
    (hb : isBlank l = false) (hm : m ≤ indentOf l) :
    isBlank (List.replicate i ' ' ++ l.drop m) = false := by
  cases hB : isBlank (List.replicate i ' ' ++ l.drop m) with
  | false => rfl
  | true =>
    exfalso
    have hall := (isBlank_iff_all _).mp hB
    have hne := lstrip_ne_nil_of_not_blank hb
    cases hcs : lstrip l with
    | nil => exact hne hcs
    | cons c cs =>
      have hcl : c ∈ lstrip (l.drop m) := by
        rw [lstrip_drop l m hm, hcs]; exact List.mem_cons_self _ _
      have hcd : c ∈ l.drop m := (List.dropWhile_sublist _).subset hcl
      have hsp : pyIsSpace c = true :=
        hall c (List.mem_append.mpr (Or.inr hcd))
      have hns : pyIsSpace c = false := by
        have := List.head?_dropWhile_not pyIsSpace l
        rw [show List.dropWhile pyIsSpace l = lstrip l from rfl, hcs] at this
        simpa using this
      rw [hsp] at hns
      cases hns

/-! ### Minimum-indentation facts -/

theorem foldl_min_le (x : Nat) (xs : List Nat) :
    xs.foldl Nat.min x ≤ x ∧ ∀ y ∈ xs, xs.foldl Nat.min x ≤ y := by
  induction xs generalizing x with
  | nil => simp
  | cons y ys ih =>
    obtain ⟨h1, h2⟩ := ih (Nat.min x y)
    refine ⟨le_trans h1 (Nat.min_le_left _ _), ?_⟩
    intro z hz
    rcases List.mem_cons.mp hz with rfl | hz
    · exact le_trans h1 (Nat.min_le_right _ _)
    · exact h2 z hz

theorem foldl_min_mem (x : Nat) (xs : List Nat) :
    xs.foldl Nat.min x ∈ x :: xs := by
  induction xs generalizing x with
  | nil => simp
  | cons y ys ih =>
    have h := ih (Nat.min x y)
    simp only [List.foldl_cons]
    rcases List.mem_cons.mp h with h1 | h1
    · rw [h1]
      rcases Nat.le_total x y with hxy | hxy
      · have h2 : Nat.min x y = x := Nat.min_eq_left hxy
        rw [h2]; simp
      · have h2 : Nat.min x y = y := Nat.min_eq_right hxy
        rw [h2]; simp
    · simp [List.mem_cons.mpr (Or.inr h1)]

theorem min_indent_le {tail : List (List Char)} {l : List Char}
    (hl : l ∈ tail) (hb : isBlank l = false) :
    min_indent_of tail ≤ indentOf l := by
  have hmem : indentOf l ∈ (tail.filter (fun l => !(isBlank l))).map indentOf :=
    List.mem_map_of_mem _ (List.mem_filter.mpr ⟨hl, by simp [hb]⟩)
  unfold min_indent_of
  cases hcase : (tail.filter (fun l => !(isBlank l))).map indentOf with
  | nil => rw [hcase] at hmem; cases hmem
  | cons x xs =>
    rw [hcase] at hmem
    rcases List.mem_cons.mp hmem with rfl | hmem
    · exact (foldl_min_le _ _).1
    · exact (foldl_min_le _ _).2 _ hmem

theorem min_indent_mem {tail : List (List Char)} {l₀ : List Char}
    (hl₀ : l₀ ∈ tail) (hb₀ : isBlank l₀ = false) :
    ∃ l ∈ tail, isBlank l = false ∧ indentOf l = min_indent_of tail := by
  unfold min_indent_of
  cases hcase : (tail.filter (fun l => !(isBlank l))).map indentOf with
  | nil =>
    exfalso
    have hmem : indentOf l₀ ∈ (tail.filter (fun l => !(isBlank l))).map indentOf :=
      List.mem_map_of_mem _ (List.mem_filter.mpr ⟨hl₀, by simp [hb₀]⟩)
    rw [hcase] at hmem
    cases hmem
  | cons x xs =>
    have hmem : xs.foldl Nat.min x ∈ x :: xs := foldl_min_mem x xs
    rw [← hcase] at hmem
    obtain ⟨l, hl, hval⟩ := List.mem_map.mp hmem
    have hfil := List.mem_filter.mp hl
    exact ⟨l, hfil.1, by simpa using hfil.2, hval⟩

/-! ### Facts about splitlines -/

theorem splitlinesAux_newline (rest acc : List Char) :
    splitlinesAux ('\n' :: rest) acc = acc.reverse :: splitlinesAux rest [] := rfl

theorem splitlinesAux_crlf (rest acc : List Char) :
    splitlinesAux ('\r' :: '\n' :: rest) acc = acc.reverse :: splitlinesAux rest [] := rfl

theorem splitlinesAux_cr {rest : List Char}
    (hr : ∀ r2, rest = '\n' :: r2 → False) (acc : List Char) :
    splitlinesAux ('\r' :: rest) acc = acc.reverse :: splitlinesAux rest [] := by
  rw [splitlinesAux.eq_def]
  split
  · rename_i heq; simp at heq
  · rename_i heq
    injection heq with _ htail
    exact absurd htail (hr _)
  · rename_i heq
    injection heq with _ htail
    rw [htail]
  · rename_i heq
    injection heq with hc _
    simp at hc
  · rename_i hA hB hC heq
    injection heq with hc _
    exact absurd hc.symm hB

theorem splitlinesAux_other {c : Char} (h1 : (c = '\r') → False)
    (h2 : (c = '\n') → False) (rest acc : List Char) :
    splitlinesAux (c :: rest) acc = splitlinesAux rest (c :: acc) := by
  rw [splitlinesAux.eq_def]
  split
  · rename_i heq; simp at heq
  · rename_i heq; injection heq with hc _; exact absurd hc h1
  · rename_i heq; injection heq with hc _; exact absurd hc h1
  · rename_i heq; injection heq with hc _; exact absurd hc h2
  · rename_i heq
    injection heq with hc hrest
    subst hc; subst hrest; rfl

theorem not_newline_iff {c : Char} :
    isNewlineChar c = false ↔ ((c = '\r') → False) ∧ ((c = '\n') → False) := by
  simp only [isNewlineChar, Bool.or_eq_false_iff, beq_eq_false_iff_ne, ne_eq]
  constructor
  · rintro ⟨hn, hr⟩
    exact ⟨fun h => hr h, fun h => hn h⟩
  · rintro ⟨hr, hn⟩
    exact ⟨fun h => hn h, fun h => hr h⟩

theorem splitlinesAux_no_boundary {l : List Char}
    (hl : ∀ c ∈ l, isNewlineChar c = false) (acc : List Char) :
    splitlinesAux l acc =
      if acc.isEmpty && l.isEmpty then [] else [acc.reverse ++ l] := by
  induction l generalizing acc with
  | nil => simp [splitlinesAux]
  | cons c cs ih =>
    obtain ⟨h1, h2⟩ := not_newline_iff.mp (hl c (List.mem_cons_self _ _))
    rw [splitlinesAux_other h1 h2,
      ih fun d hd => hl d (List.mem_cons_of_mem _ hd)]
    simp

theorem splitlinesAux_append_newline {l : List Char}
    (hl : ∀ c ∈ l, isNewlineChar c = false) (t acc : List Char) :
    splitlinesAux (l ++ '\n' :: t) acc =
      (acc.reverse ++ l) :: splitlinesAux t [] := by
  induction l generalizing acc with
  | nil => simp [splitlinesAux_newline]
  | cons c cs ih =>
    obtain ⟨h1, h2⟩ := not_newline_iff.mp (hl c (List.mem_cons_self _ _))
    rw [List.cons_append, splitlinesAux_other h1 h2,
      ih fun d hd => hl d (List.mem_cons_of_mem _ hd)]
    simp

theorem mem_splitlinesAux_no_boundary :
    ∀ (s acc : List Char), (∀ c ∈ acc, isNewlineChar c = false) →
      ∀ l ∈ splitlinesAux s acc, ∀ c ∈ l, isNewlineChar c = false := by
  intro s acc
  induction s, acc using splitlinesAux.induct with
  | case1 acc hacc =>
    intro hacc2 l hl
    rw [show splitlinesAux [] acc = [] from by simp [splitlinesAux, hacc]] at hl
    cases hl
  | case2 acc hacc =>
    intro hacc2 l hl
    simp only [splitlinesAux, if_neg hacc] at hl
    rcases List.mem_singleton.mp hl with rfl
    intro c hc
    exact hacc2 c (List.mem_reverse.mp hc)
  | case3 rest acc ih =>
    intro hacc2 l hl
    rw [splitlinesAux_crlf] at hl
    rcases List.mem_cons.mp hl with rfl | hl
    · exact fun c hc => hacc2 c (List.mem_reverse.mp hc)
    · exact ih (by intro c hc; cases hc) l hl
  | case4 rest acc hne ih =>
    intro hacc2 l hl
    rw [splitlinesAux_cr hne] at hl
    rcases List.mem_cons.mp hl with rfl | hl
    · exact fun c hc => hacc2 c (List.mem_reverse.mp hc)
    · exact ih (by intro c hc; cases hc) l hl
  | case5 rest acc ih =>
    intro hacc2 l hl
    rw [splitlinesAux_newline] at hl
    rcases List.mem_cons.mp hl with rfl | hl
    · exact fun c hc => hacc2 c (List.mem_reverse.mp hc)
    · exact ih (by intro c hc; cases hc) l hl
  | case6 c rest acc hno h1 h2 ih =>
    intro hacc2 l hl
    rw [splitlinesAux_other h1 h2] at hl
    refine ih ?_ l hl
    intro d hd
    rcases List.mem_cons.mp hd with rfl | hd
    · exact not_newline_iff.mpr ⟨h1, h2⟩
    · exact hacc2 d hd

theorem mem_splitlines_no_boundary {s : List Char} :
    ∀ l ∈ splitlines s, ∀ c ∈ l, isNewlineChar c = false :=
  mem_splitlinesAux_no_boundary s [] (by intro c hc; cases hc)

theorem joinLines_singleton (l : List Char) : joinLines [l] = l := by
  simp [joinLines, List.intercalate]

theorem joinLines_cons_cons (l m : List Char) (t : List (List Char)) :
    joinLines (l :: m :: t) = l ++ '\n' :: joinLines (m :: t) := by
  simp [joinLines, List.intercalate]

theorem splitlines_joinLines {L : List (List Char)} (hne : L ≠ [])
    (hbd : ∀ l ∈ L, ∀ c ∈ l, isNewlineChar c = false)
    (hlast : L.getLastD [] ≠ []) :
    splitlines (joinLines L) = L := by
  induction L with
  | nil => cases hne rfl
  | cons l L' ih =>
    cases L' with
    | nil =>
      rw [joinLines_singleton]
      unfold splitlines
      rw [splitlinesAux_no_boundary (hbd l (List.mem_cons_self _ _)) []]
      have hlne : l ≠ [] := by simpa [List.getLastD] using hlast
      simp [hlne]
    | cons m L'' =>
      rw [joinLines_cons_cons]
      unfold splitlines
      rw [splitlinesAux_append_newline (hbd l (List.mem_cons_self _ _)) _ []]
      simp only [List.reverse_nil, List.nil_append]
      congr 1
      refine ih (by simp) (fun x hx => hbd x (List.mem_cons_of_mem _ hx)) ?_
      simpa [List.getLastD] using hlast

/-! ### Facts about header reconstruction -/

theorem endsColon_eq_head_rev (s : List Char) :
    endsColon s = ((s.reverse.dropWhile pyIsSpace).head? == some ':') := by
  unfold endsColon rstrip
  rw [List.getLast?_reverse]

theorem head_dropWhile_append_of_all {p : Char → Bool} {u v : List Char}
    (hv : ∀ c ∈ v, p c = true) :
    ((u ++ v).dropWhile p).head? = (u.dropWhile p).head? := by
  rw [List.dropWhile_append]
  cases hu : u.dropWhile p with
  | nil => simp [hu, List.dropWhile_eq_nil_iff.mpr hv]
  | cons x xs => simp [hu]

theorem endsColon_replicate_lstrip (k : Nat) (s : List Char) :
    endsColon (List.replicate k ' ' ++ lstrip s) = endsColon s := by
  have hL : ((List.replicate k ' ' ++ lstrip s).reverse.dropWhile pyIsSpace).head?
      = (((lstrip s).reverse).dropWhile pyIsSpace).head? := by
    rw [List.reverse_append, List.reverse_replicate]
    exact head_dropWhile_append_of_all fun c hc => by
      rw [List.eq_of_mem_replicate hc]; rfl
  have hR : (s.reverse.dropWhile pyIsSpace).head?
      = (((lstrip s).reverse).dropWhile pyIsSpace).head? := by
    conv_lhs => rw [← takeWhile_append_lstrip s]
    rw [List.reverse_append]
    exact head_dropWhile_append_of_all fun c hc =>
      List.mem_takeWhile_imp (List.mem_reverse.mp hc)
  rw [endsColon_eq_head_rev, endsColon_eq_head_rev, hL, hR]

theorem endsColon_firstSigLine (parent_indentation : Nat) (line : List Char) :
    endsColon (firstSigLine parent_indentation line) = endsColon line := by
  unfold firstSigLine
  by_cases hp : 0 < parent_indentation
  · rw [if_pos hp]; exact endsColon_replicate_lstrip _ _
  · rw [if_neg hp]

theorem endsColon_reindent (parent_indentation : Nat) (first_line next_line : List Char) :
    endsColon (reindentContinuation parent_indentation first_line next_line)
      = endsColon next_line := by
  simp only [reindentContinuation]
  by_cases hp : 0 < parent_indentation
  · rw [if_pos hp]
    by_cases hf : (lstrip first_line).findIdx (fun c => c == '(')
        < (lstrip first_line).length
    · rw [if_pos hf]; exact endsColon_replicate_lstrip _ _
    · rw [if_neg hf]; exact endsColon_replicate_lstrip _ _
  · rw [if_neg hp]

theorem takeThrough_eq_take_findIdx {α : Type} (p : α → Bool) (xs : List α) :
    takeThrough p xs = xs.take (xs.findIdx p + 1) := by
  induction xs with
  | nil => rfl
  | cons x xs ih =>
    cases hx : p x with
    | true => simp [takeThrough, hx, List.findIdx_cons]
    | false => simp [takeThrough, hx, List.findIdx_cons, ih]

theorem takeThrough_all_false {α : Type} {p : α → Bool} {xs : List α}
    (h : ∀ x ∈ xs, p x = false) : takeThrough p xs = xs := by
  induction xs with
  | nil => rfl
  | cons x xs ih =>
    have hx := h x (List.mem_cons_self _ _)
    simp [takeThrough, hx, ih fun y hy => h y (List.mem_cons_of_mem _ hy)]

theorem mem_takeThrough {α : Type} {p : α → Bool} {xs : List α} {x : α}
    (h : x ∈ takeThrough p xs) : x ∈ xs := by
  rw [takeThrough_eq_take_findIdx] at h
  exact List.mem_of_mem_take h

theorem sigContinuations_stop {parent_indentation : Nat}
    {first_line last : List Char} (h : endsColon last = true)
    (remaining : List (List Char)) :
    sigContinuations parent_indentation first_line last remaining = [] := by
  cases remaining with
  | nil => rfl
  | cons next rest => simp [sigContinuations, h]

theorem sigContinuations_eq_map_takeThrough (parent_indentation : Nat)
    (first_line : List Char) :
    ∀ (remaining : List (List Char)) (last : List Char), endsColon last = false →
      sigContinuations parent_indentation first_line last remaining =
        (takeThrough endsColon remaining).map
          (reindentContinuation parent_indentation first_line) := by
  intro remaining
  induction remaining with
  | nil => intro last h; rfl
  | cons next rest ih =>
    intro last h
    simp only [sigContinuations, h, Bool.false_eq_true, if_false, takeThrough,
      List.map_cons]
    cases hn : endsColon next with
    | true =>
      rw [sigContinuations_stop (by rw [endsColon_reindent]; exact hn)]
      simp [hn]
    | false =>
      rw [ih _ (by rw [endsColon_reindent]; exact hn)]
      simp [hn]

theorem get_signature_unfold (source_lines : List (List Char))
    (lineno parent_indentation : Nat)
    (hcolon : endsColon (source_lines.getD (lineno - 1) []) = false) :
    get_signature source_lines lineno parent_indentation =
      joinLines
        (firstSigLine parent_indentation (source_lines.getD (lineno - 1) []) ::
          (takeThrough endsColon (source_lines.drop (lineno - 1 + 1))).map
            (reindentContinuation parent_indentation
              (firstSigLine parent_indentation (source_lines.getD (lineno - 1) [])))) := by
  simp only [get_signature]
  rw [sigContinuations_eq_map_takeThrough _ _ _ _
    (by rw [endsColon_firstSigLine]; exact hcolon)]

theorem length_firstSigLine_ge (parent_indentation : Nat) (line : List Char) :
    parent_indentation ≤ (firstSigLine parent_indentation line).length := by
  unfold firstSigLine
  by_cases hp : 0 < parent_indentation
  · rw [if_pos hp]; simp
  · rw [if_neg hp]; omega

theorem length_reindent_ge (parent_indentation : Nat) (fl l : List Char) :
    parent_indentation ≤ (reindentContinuation parent_indentation fl l).length := by
  simp only [reindentContinuation]
  by_cases hp : 0 < parent_indentation
  · rw [if_pos hp]
    by_cases hf : (lstrip fl).findIdx (fun c => c == '(') < (lstrip fl).length
    · rw [if_pos hf]; simp; omega
    · rw [if_neg hf]; simp; omega
  · rw [if_neg hp]; omega

theorem paren_mem_iff (first_line : List Char) :
    '(' ∈ first_line ↔
      (lstrip first_line).findIdx (fun c => c == '(')
        < (lstrip first_line).length := by
  rw [List.findIdx_lt_length]
  constructor
  · intro h
    have h2 : '(' ∈ lstrip first_line := by
      rw [← takeWhile_append_lstrip first_line] at h
      rcases List.mem_append.mp h with h3 | h3
      · exact absurd (List.mem_takeWhile_imp h3) (by decide)
      · exact h3
    exact ⟨'(', h2, by simp⟩
  · rintro ⟨x, hx, hpx⟩
    have hx' : x = '(' := by simpa using hpx
    subst hx'
    exact (List.dropWhile_sublist _).subset hx

/-! ### Claims about header reconstruction (C2, C5, C7) -/

/-- C2: in header reconstruction with base indentation > 0, every continuation
line appended after the first has its original leading whitespace discarded and
replaced: if the re-indented first line contains an opening parenthesis, the
continuation line starts at exactly one column past that parenthesis
(base indentation + offset of the parenthesis in the stripped first line + 1
spaces); if the first line contains no opening parenthesis, the continuation
line is indented with exactly base indentation + 4 spaces. -/
theorem continuation_lines_reindented (parent_indentation : Nat)
    (hp : 0 < parent_indentation) (first_line : List Char) :
    ∀ (remaining : List (List Char)) (last l : List Char),
      l ∈ sigContinuations parent_indentation first_line last remaining →
      ∃ orig ∈ remaining,
        ('(' ∈ first_line →
          l = List.replicate (parent_indentation +
                (lstrip first_line).findIdx (fun c => c == '(') + 1) ' '
              ++ lstrip orig) ∧
        ('(' ∉ first_line →
          l = List.replicate (parent_indentation + 4) ' ' ++ lstrip orig) := by
  intro remaining
  induction remaining with
  | nil => intro last l hl; cases hl
  | cons next rest ih =>
    intro last l hl
    cases hc : endsColon last with
    | true => rw [sigContinuations_stop hc] at hl; cases hl
    | false =>
      simp only [sigContinuations, hc, Bool.false_eq_true, if_false] at hl
      rcases List.mem_cons.mp hl with rfl | hl2
      · refine ⟨next, List.mem_cons_self _ _, ?_, ?_⟩
        · intro hparen
          have hlt := (paren_mem_iff first_line).mp hparen
          simp only [reindentContinuation, if_pos hp, if_pos hlt]
        · intro hparen
          have hlt : ¬ ((lstrip first_line).findIdx (fun c => c == '(')
              < (lstrip first_line).length) :=
            fun h => hparen ((paren_mem_iff _).mpr h)
          simp only [reindentContinuation, if_pos hp, if_neg hlt]
      · obtain ⟨orig, ho, hcond⟩ := ih _ _ hl2
        exact ⟨orig, List.mem_cons_of_mem _ ho, hcond⟩

/-- Witness for C2 at a concrete method header. -/
theorem continuation_lines_reindented_witness :
    0 < 4 ∧
    ("          x):".toList ∈ sigContinuations 4 "    def m(self,".toList
      "    def m(self,".toList ["        x):".toList]) ∧
    ∃ orig ∈ ["        x):".toList],
      ('(' ∈ "    def m(self,".toList →
        "          x):".toList = List.replicate (4 +
          (lstrip "    def m(self,".toList).findIdx (fun c => c == '(') + 1) ' '
          ++ lstrip orig) ∧
      ('(' ∉ "    def m(self,".toList →
        "          x):".toList = List.replicate (4 + 4) ' ' ++ lstrip orig) :=
  ⟨by decide, by decide,
    continuation_lines_reindented 4 (by decide) "    def m(self,".toList
      ["        x):".toList] "    def m(self,".toList "          x):".toList
      (by decide)⟩

/-- C5: for every multi-line header with a terminating line, header
reconstruction terminates at the first scanned line whose right-trimmed text
ends with a colon, emitting exactly the lines up to and including that line
(the continuation lines re-indented), and every emitted line has length at
least the requested base indentation. -/
theorem multiline_header_reconstruction (source_lines : List (List Char))
    (lineno parent_indentation : Nat)
    (_hidx : lineno - 1 < source_lines.length)
    (hml : endsColon (source_lines.getD (lineno - 1) []) = false)
    (_hterm : ∃ l ∈ source_lines.drop (lineno - 1 + 1), endsColon l = true) :
    ∃ emitted,
      get_signature source_lines lineno parent_indentation = joinLines emitted ∧
      emitted =
        firstSigLine parent_indentation (source_lines.getD (lineno - 1) []) ::
          ((source_lines.drop (lineno - 1 + 1)).take
              ((source_lines.drop (lineno - 1 + 1)).findIdx endsColon + 1)).map
            (reindentContinuation parent_indentation
              (firstSigLine parent_indentation (source_lines.getD (lineno - 1) []))) ∧
      ∀ l ∈ emitted, parent_indentation ≤ l.length := by
  refine ⟨_, get_signature_unfold source_lines lineno parent_indentation hml,
    ?_, ?_⟩
  · rw [takeThrough_eq_take_findIdx]
  · intro l hl
    rcases List.mem_cons.mp hl with rfl | hl
    · exact length_firstSigLine_ge _ _
    · obtain ⟨orig, _, rfl⟩ := List.mem_map.mp hl
      exact length_reindent_ge _ _ _

/-- Witness for C5 at a concrete two-line header. -/
theorem multiline_header_reconstruction_witness :
    (1 - 1 < (["def f(".toList, "  x):".toList] : List (List Char)).length) ∧
    endsColon ((["def f(".toList, "  x):".toList] :
      List (List Char)).getD (1 - 1) []) = false ∧
    (∃ l ∈ (["def f(".toList, "  x):".toList] :
        List (List Char)).drop (1 - 1 + 1), endsColon l = true) ∧
    ∃ emitted,
      get_signature ["def f(".toList, "  x):".toList] 1 0 = joinLines emitted ∧
      emitted =
        firstSigLine 0 ((["def f(".toList, "  x):".toList] :
            List (List Char)).getD (1 - 1) []) ::
          (((["def f(".toList, "  x):".toList] :
              List (List Char)).drop (1 - 1 + 1)).take
              (((["def f(".toList, "  x):".toList] :
                List (List Char)).drop (1 - 1 + 1)).findIdx endsColon + 1)).map
            (reindentContinuation 0
              (firstSigLine 0 ((["def f(".toList, "  x):".toList] :
                List (List Char)).getD (1 - 1) []))) ∧
      ∀ l ∈ emitted, 0 ≤ l.length :=
  ⟨by decide, by decide, ⟨"  x):".toList, by decide, by decide⟩,
    multiline_header_reconstruction ["def f(".toList, "  x):".toList] 1 0
      (by decide) (by decide) ⟨"  x):".toList, by decide, by decide⟩⟩

/-- C7: if end of file is reached during header scanning before any line whose
right-trimmed text ends with a colon, reconstruction stops gracefully and
returns the accumulated lines (the first line plus every remaining line,
re-indented); the function is total, so no access past the end of the line
list occurs and no error is raised. -/
theorem eof_reached_graceful (source_lines : List (List Char))
    (lineno parent_indentation : Nat)
    (_hidx : lineno - 1 < source_lines.length)
    (hml : endsColon (source_lines.getD (lineno - 1) []) = false)
    (hnone : ∀ l ∈ source_lines.drop (lineno - 1 + 1), endsColon l = false) :
    get_signature source_lines lineno parent_indentation =
      joinLines
        (firstSigLine parent_indentation (source_lines.getD (lineno - 1) []) ::
          (source_lines.drop (lineno - 1 + 1)).map
            (reindentContinuation parent_indentation
              (firstSigLine parent_indentation (source_lines.getD (lineno - 1) [])))) := by
  rw [get_signature_unfold source_lines lineno parent_indentation hml,
    takeThrough_all_false hnone]

/-- Witness for C7 at a concrete header with no terminating colon. -/
theorem eof_reached_graceful_witness :
    (1 - 1 < (["def f(".toList, "  x".toList] : List (List Char)).length) ∧
    endsColon ((["def f(".toList, "  x".toList] :
      List (List Char)).getD (1 - 1) []) = false ∧
    (∀ l ∈ (["def f(".toList, "  x".toList] :
        List (List Char)).drop (1 - 1 + 1), endsColon l = false) ∧
    get_signature ["def f(".toList, "  x".toList] 1 0 =
      joinLines
        (firstSigLine 0 ((["def f(".toList, "  x".toList] :
            List (List Char)).getD (1 - 1) []) ::
          ((["def f(".toList, "  x".toList] :
              List (List Char)).drop (1 - 1 + 1)).map
            (reindentContinuation 0
              (firstSigLine 0 ((["def f(".toList, "  x".toList] :
                List (List Char)).getD (1 - 1) [])))) :=
  ⟨by decide, by decide, by decide,
    eof_reached_graceful ["def f(".toList, "  x".toList] 1 0
      (by decide) (by decide) (by decide)⟩

/-! ### Facts about the documentation normalizer -/

theorem getLastD_mem {α : Type} : ∀ (l : List α) (a : α), l ≠ [] → l.getLastD a ∈ l
  | [], _, h => absurd rfl h
  | [x], a, _ => by simp [List.getLastD]
  | x :: y :: t, _, _ => by
    rw [List.getLastD_cons]
    exact List.mem_cons_of_mem _ (getLastD_mem (y :: t) x (by simp))

theorem getLastD_default_irrel {α : Type} :
    ∀ (l : List α), l ≠ [] → ∀ (a b : α), l.getLastD a = l.getLastD b
  | [], h => absurd rfl h
  | _ :: _, _ => fun _ _ => by rw [List.getLastD_cons, List.getLastD_cons]

theorem getLastD_map {α β : Type} (f : α → β) :
    ∀ (l : List α) (d : α), l ≠ [] → (l.map f).getLastD (f d) = f (l.getLastD d)
  | [], _, h => absurd rfl h
  | [x], _, _ => by simp [List.getLastD]
  | x :: y :: t, d, _ => by
    rw [List.map_cons, List.getLastD_cons, List.getLastD_cons]
    exact getLastD_map f (y :: t) x (by simp)

theorem normalize_docstring_eq_of_multiline {d first next : List Char}
    {rest : List (List Char)} (i : Nat) (hd : d ≠ [])
    (hsp : splitlines d = first :: next :: rest) :
    normalize_docstring d i =
      some (joinLines (first :: (next :: rest).map (fun line =>
        if !(isBlank line) then
          List.replicate i ' ' ++ line.drop (min_indent_of (next :: rest))
        else []))) := by
  unfold normalize_docstring
  rw [if_neg (by simp only [List.isEmpty_iff]; exact hd), hsp]

/-- The fixed-point core of the idempotence argument: re-normalizing the
normalizer's multi-line output (whose final line is non-blank) leaves it
unchanged. -/
theorem normalize_fixed_point (first next : List Char) (rest : List (List Char))
    (i : Nat)
    (hbd : ∀ l ∈ first :: next :: rest, ∀ c ∈ l, isNewlineChar c = false)
    (hlast : isBlank ((next :: rest).getLastD first) = false) :
    normalize_docstring
        (joinLines (first :: (next :: rest).map (fun line =>
          if !(isBlank line) then
            List.replicate i ' ' ++ line.drop (min_indent_of (next :: rest))
          else []))) i =
      some (joinLines (first :: (next :: rest).map (fun line =>
        if !(isBlank line) then
          List.replicate i ' ' ++ line.drop (min_indent_of (next :: rest))
        else []))) := by
  set tail : List (List Char) := next :: rest with htail
  set m : Nat := min_indent_of tail with hmdef
  set f : List Char → List Char := fun line =>
    if !(isBlank line) then List.replicate i ' ' ++ line.drop m else [] with hfdef
  have htail_ne : tail ≠ [] := by simp [htail]
  have htl_mem : tail.getLastD first ∈ tail := getLastD_mem _ _ htail_ne
  have hm_le : m ≤ indentOf (tail.getLastD first) := min_indent_le htl_mem hlast
  have hf_blank : ∀ l, isBlank l = true → f l = [] := by
    intro l hb; rw [hfdef]; simp [hb]
  have hf_nonblank : ∀ l, isBlank l = false →
      f l = List.replicate i ' ' ++ l.drop m := by
    intro l hb; rw [hfdef]; simp [hb]
  have hf_nb_blank : ∀ l ∈ tail, isBlank l = false → isBlank (f l) = false := by
    intro l hl hb
    rw [hf_nonblank l hb]
    exact not_blank_replicate_drop i m hb (min_indent_le hl hb)
  have hf_nb_indent : ∀ l ∈ tail, isBlank l = false →
      indentOf (f l) = i + (indentOf l - m) := by
    intro l hl hb
    rw [hf_nonblank l hb, indentOf_replicate_space_append,
      indentOf_drop (min_indent_le hl hb)]
  obtain ⟨l₀, hl₀, hb₀, hind₀⟩ := min_indent_mem htl_mem hlast
  have hm' : min_indent_of (tail.map f) = i := by
    have h1 : min_indent_of (tail.map f) ≤ i := by
      have h := min_indent_le (List.mem_map_of_mem f hl₀) (hf_nb_blank _ hl₀ hb₀)
      rw [hf_nb_indent _ hl₀ hb₀, hind₀] at h
      omega
    have h2 : i ≤ min_indent_of (tail.map f) := by
      obtain ⟨l'', hl'', hb'', hind''⟩ :=
        min_indent_mem (List.mem_map_of_mem f hl₀) (hf_nb_blank _ hl₀ hb₀)
      obtain ⟨l, hl, rfl⟩ := List.mem_map.mp hl''
      have hbl : isBlank l = false := by
        cases hbool : isBlank l with
        | false => rfl
        | true =>
          exfalso
          rw [hf_blank l hbool] at hb''
          have hbe : isBlank ([] : List Char) = true := rfl
          rw [hbe] at hb''
          cases hb''
      rw [← hind'', hf_nb_indent _ hl hbl]
      omega
    omega
  have hbd_N : ∀ l ∈ first :: tail.map f, ∀ c ∈ l, isNewlineChar c = false := by
    intro l hl
    rcases List.mem_cons.mp hl with rfl | hl
    · exact hbd _ (List.mem_cons_self _ _)
    · obtain ⟨l', hl', rfl⟩ := List.mem_map.mp hl
      intro c hc
      cases hbool : isBlank l' with
      | true => rw [hf_blank l' hbool] at hc; cases hc
      | false =>
        rw [hf_nonblank l' hbool] at hc
        rcases List.mem_append.mp hc with hc | hc
        · rw [List.eq_of_mem_replicate hc]; rfl
        · exact hbd l' (List.mem_cons_of_mem _ hl') c (List.mem_of_mem_drop hc)
  have hlast_N : (first :: tail.map f).getLastD [] ≠ [] := by
    have h1 : (first :: tail.map f).getLastD [] = (tail.map f).getLastD first :=
      List.getLastD_cons _ _ _
    have h2 : (tail.map f).getLastD first = (tail.map f).getLastD (f first) :=
      getLastD_default_irrel _ (by simp [htail]) _ _
    have h3 : (tail.map f).getLastD (f first) = f (tail.getLastD first) :=
      getLastD_map f tail first htail_ne
    rw [h1, h2, h3, hf_nonblank _ hlast]
    apply List.append_ne_nil_of_right_ne_nil
    have h4 := indentOf_lt_length_of_not_blank hlast
    intro hcon
    have h5 := congrArg List.length hcon
    rw [List.length_drop] at h5
    simp only [List.length_nil] at h5
    omega
  have hsplit_N : splitlines (joinLines (first :: tail.map f)) = first :: tail.map f :=
    splitlines_joinLines (by simp) hbd_N hlast_N
  have hne_N : joinLines (first :: tail.map f) ≠ [] := by
    rw [htail, List.map_cons, joinLines_cons_cons]
    exact List.append_ne_nil_of_right_ne_nil _ (by simp)
  have happ := @normalize_docstring_eq_of_multiline
    (joinLines (first :: tail.map f)) first (f next) (rest.map f) i hne_N
    (by rw [hsplit_N, htail, List.map_cons])
  rw [happ]
  have hfold : f next :: rest.map f = tail.map f := by
    rw [htail, List.map_cons]
  rw [hfold]
  have hmap : (tail.map f).map (fun line =>
      if !(isBlank line) then
        List.replicate i ' ' ++ line.drop (min_indent_of (tail.map f))
      else []) = tail.map f := by
    rw [List.map_map]
    apply List.map_congr_left
    intro l hl
    show (if !(isBlank (f l)) then
        List.replicate i ' ' ++ (f l).drop (min_indent_of (tail.map f))
      else []) = f l
    cases hbool : isBlank l with
    | true =>
      rw [hf_blank l hbool]
      rfl
    | false =>
      have h1 := hf_nonblank l hbool
      have h2 := hf_nb_blank l hl hbool
      rw [hm', h2]
      simp only [Bool.not_false, if_true]
      rw [h1, drop_replicate_space_append]
  rw [hmap]

/-! ### Claims about the documentation normalizer (C4, C6) -/

/-- C4 counterexample: the normalizer is not idempotent on every multi-line
documentation string.  For `"a\nb\n\n"` at indentation 0 the first pass yields
`"a\nb\n"` (the trailing blank line becomes an empty line, and the join leaves
a trailing newline), but the second pass yields `"a\nb"`, because splitting
`"a\nb\n"` back into lines drops the trailing newline. -/
theorem normalize_docstring_not_idempotent :
    2 ≤ (splitlines "a\nb\n\n".toList).length ∧
    normalize_docstring "a\nb\n\n".toList 0 = some ("a\nb\n".toList) ∧
    normalize_docstring "a\nb\n".toList 0 = some ("a\nb".toList) ∧
    ("a\nb\n".toList ≠ "a\nb".toList) := by
  refine ⟨by decide, by decide, by decide, by decide⟩

/-- C4 (amended): for every multi-line documentation string whose final line
is not blank, and every target indentation, the Documentation Normalizer is
idempotent: applying it to its own output at the same target indentation
returns that output unchanged.  (As the counterexample shows, idempotence can
fail when the final line is blank.) -/
theorem normalize_docstring_idempotent (d : List Char) (i : Nat)
    (hml : 2 ≤ (splitlines d).length)
    (hlast : isBlank ((splitlines d).getLastD []) = false) :
    ∃ out, normalize_docstring d i = some out ∧
      normalize_docstring out i = some out := by
  have hd : d ≠ [] := by
    intro h; rw [h] at hml; simp [splitlines, splitlinesAux] at hml
  cases hsp : splitlines d with
  | nil => rw [hsp] at hml; simp at hml
  | cons first tl =>
    cases tl with
    | nil => rw [hsp] at hml; simp at hml
    | cons next rest =>
      refine ⟨_, normalize_docstring_eq_of_multiline i hd hsp, ?_⟩
      apply normalize_fixed_point
      · intro l hl
        exact @mem_splitlines_no_boundary d l (by rw [hsp]; exact hl)
      · rw [hsp, List.getLastD_cons] at hlast
        exact hlast

/-- Witness for the amended C4 at a concrete two-line docstring. -/
theorem normalize_docstring_idempotent_witness :
    2 ≤ (splitlines "a\n  b".toList).length ∧
    isBlank ((splitlines "a\n  b".toList).getLastD []) = false ∧
    ∃ out, normalize_docstring "a\n  b".toList 4 = some out ∧
      normalize_docstring out 4 = some out :=
  ⟨by decide, by decide,
    normalize_docstring_idempotent "a\n  b".toList 4 (by decide) (by decide)⟩

theorem min_indent_of_eq_min? (tail : List (List Char)) :
    min_indent_of tail =
      (((tail.filter (fun l => !(isBlank l))).map indentOf).min?).getD 0 := by
  unfold min_indent_of
  cases (tail.filter (fun l => !(isBlank l))).map indentOf with
  | nil => rfl
  | cons x xs => rfl

/-- C6: for every multi-line documentation string and target indentation, the
code's `normalize_docstring` produces exactly the normalization described by
the specification (`normalize_docstring_spec`): first line verbatim, minimum
leading-whitespace width stripped from subsequent non-empty lines with the
target indentation prepended, empty lines mapped to empty strings, all joined
with newlines. -/
theorem normalize_docstring_matches_spec (docstring : List Char)
    (indentation : Nat) (hml : 2 ≤ (splitlines docstring).length) :
    normalize_docstring docstring indentation =
      some (normalize_docstring_spec docstring indentation) := by
  have hd : docstring ≠ [] := by
    intro h; rw [h] at hml; simp [splitlines, splitlinesAux] at hml
  cases hsp : splitlines docstring with
  | nil => rw [hsp] at hml; simp at hml
  | cons first tl =>
    cases tl with
    | nil => rw [hsp] at hml; simp at hml
    | cons next rest =>
      rw [normalize_docstring_eq_of_multiline indentation hd hsp]
      unfold normalize_docstring_spec
      rw [hsp]
      simp only [List.take, List.drop, List.singleton_append]
      rw [← min_indent_of_eq_min?]
      have hfun : ((next :: rest).map (fun line =>
          if !(isBlank line) then
            List.replicate indentation ' ' ++ line.drop (min_indent_of (next :: rest))
          else [])) = ((next :: rest).map (fun line =>
          if isBlank line then []
          else List.replicate indentation ' ' ++ line.drop (min_indent_of (next :: rest)))) := by
        apply List.map_congr_left
        intro l _
        cases hbool : isBlank l <;> simp [hbool]
      rw [hfun]

/-- Witness for C6 at a concrete two-line docstring. -/
theorem normalize_docstring_matches_spec_witness :
    2 ≤ (splitlines "a\n  b".toList).length ∧
    normalize_docstring "a\n  b".toList 8 =
      some (normalize_docstring_spec "a\n  b".toList 8) :=
  ⟨by decide, normalize_docstring_matches_spec "a\n  b".toList 8 (by decide)⟩

/-! ### Claims about the orchestrator (C1, C3, C8, C9, C10) -/

/-- C1: for every file path, when the fallible read-and-parse front end fails
with message `e` (any malformed syntax, encoding or permission failure is
modelled by the `Except.error` input), the orchestrator returns normally with
the single diagnostic string `Error extracting signatures from <path>: <e>`;
the error is returned as ordinary output rather than propagated, so one
malformed file cannot abort a batch of files. -/
theorem extract_error_path (file_path e : List Char) :
    extract_signatures_and_docstrings file_path (Except.error e) =
      "Error extracting signatures from ".toList ++ file_path ++
        ": ".toList ++ e := rfl

/-- C3 counterexample: the docstring of a top-level declaration is rendered
at indentation 4, not 0: for `def f():` with docstring `hi` the second output
line carries four leading spaces. -/
theorem top_level_docstring_depth_counterexample :
    extract_body ["def f():".toList]
        [PyStmt.functionDef 1 (some "hi".toList) []] =
      "def f():\n    \"\"\"hi\"\"\"".toList ∧
    indentOf ((splitlines (extract_body ["def f():".toList]
        [PyStmt.functionDef 1 (some "hi".toList) []])).getD 1 []) ≠ 0 := by
  refine ⟨by decide, by decide⟩

/-- C3 (amended): the extraction output follows a fixed two-level depth model
with top-level declaration headers at indentation 0, top-level docstring
wrappers at 4 spaces, method headers at 4 spaces and method docstring
wrappers at 8 spaces: the orchestrator's rendering equals the
depth-parameterized rendering instantiated at depths (0, 4, 4, 8). -/
theorem fixed_depth_model (source_lines : List (List Char))
    (body : List PyStmt) :
    extract_body source_lines body =
      extract_bodyDepths 0 4 4 8 source_lines body := by
  have hitem : processClassItem source_lines
      = processClassItemDepths 4 8 source_lines := by
    funext s
    cases s <;> rfl
  have hstmt : processStmt source_lines
      = processStmtDepths 0 4 4 8 source_lines := by
    funext s
    cases s with
    | functionDef l d b => rfl
    | classDef l d b =>
      simp only [processStmt, processStmtDepths, hitem]
    | asyncFunctionDef l d b => rfl
    | other b => rfl
  unfold extract_body extract_bodyDepths
  rw [hstmt]

theorem flatMap_classMethods (source_lines : List (List Char))
    (body : List PyStmt) :
    body.flatMap (processClassItem source_lines) =
      (classMethods body).map (renderDecl source_lines) := by
  induction body with
  | nil => rfl
  | cons s rest ih =>
    cases s with
    | functionDef l d b =>
      have hone : processClassItem source_lines (PyStmt.functionDef l d b)
          = [renderDecl source_lines (Decl.method l d)] := by
        cases hdt : docTruthy d <;> simp [processClassItem, renderDecl, hdt]
      simp only [List.flatMap_cons, classMethods, List.map_cons, hone, ih]
      rfl
    | asyncFunctionDef l d b =>
      simp only [List.flatMap_cons, classMethods, ih]
      rfl
    | classDef l d b =>
      simp only [List.flatMap_cons, classMethods, ih]
      rfl
    | other b =>
      simp only [List.flatMap_cons, classMethods, ih]
      rfl

/-- C8: rendered blocks appear in source order — the orchestrator's output
equals the rendering of the Declaration Locator's ordered declaration list
(top-level functions and classes in file order, each class's direct methods
immediately after the class's own block in class-body order; only module-body
and class-body direct children appear), joined with blank lines. -/
theorem output_order_matches_source (source_lines : List (List Char))
    (body : List PyStmt) :
    extract_body source_lines body =
      List.intercalate ("\n\n".toList)
        ((declarationList body).map (renderDecl source_lines)) := by
  unfold extract_body
  congr 1
  induction body with
  | nil => rfl
  | cons s rest ih =>
    cases s with
    | functionDef l d b =>
      have hone : processStmt source_lines (PyStmt.functionDef l d b)
          = [renderDecl source_lines (Decl.topFunction l d)] := by
        cases hdt : docTruthy d <;> simp [processStmt, renderDecl, hdt]
      simp only [List.flatMap_cons, declarationList, List.map_cons, hone, ih]
      rfl
    | classDef l d b =>
      have hone : processStmt source_lines (PyStmt.classDef l d b)
          = renderDecl source_lines (Decl.classDecl l d) ::
              b.flatMap (processClassItem source_lines) := by
        cases hdt : docTruthy d <;> simp [processStmt, renderDecl, hdt]
      simp only [List.flatMap_cons, declarationList, List.map_cons, hone, ih,
        List.map_append, flatMap_classMethods, List.cons_append]
    | asyncFunctionDef l d b =>
      simp only [List.flatMap_cons, declarationList, ih]
      rfl
    | other b =>
      simp only [List.flatMap_cons, declarationList, ih]
      rfl

/-- C9: declarations introduced with `async def` are excluded from the
extraction output, both at module level and as class-body methods: inserting
an async function definition anywhere at module level, or anywhere in a class
body, leaves the rendered output unchanged. -/
theorem async_defs_excluded (source_lines : List (List Char))
    (l : Nat) (d : Option (List Char)) (b : List PyStmt)
    (body1 body2 : List PyStmt) (cl : Nat) (cd : Option (List Char))
    (m1 m2 : List PyStmt) :
    extract_body source_lines
        (body1 ++ PyStmt.asyncFunctionDef l d b :: body2) =
      extract_body source_lines (body1 ++ body2) ∧
    processStmt source_lines
        (PyStmt.classDef cl cd (m1 ++ PyStmt.asyncFunctionDef l d b :: m2)) =
      processStmt source_lines (PyStmt.classDef cl cd (m1 ++ m2)) := by
  constructor
  · unfold extract_body
    rw [List.flatMap_append, List.flatMap_append, List.flatMap_cons]
    have h : processStmt source_lines (PyStmt.asyncFunctionDef l d b) = [] := rfl
    rw [h, List.nil_append]
  · have h : (m1 ++ PyStmt.asyncFunctionDef l d b :: m2).flatMap
        (processClassItem source_lines)
        = (m1 ++ m2).flatMap (processClassItem source_lines) := by
      rw [List.flatMap_append, List.flatMap_append, List.flatMap_cons]
      have h2 : processClassItem source_lines (PyStmt.asyncFunctionDef l d b)
          = [] := rfl
      rw [h2, List.nil_append]
    simp only [processStmt, h]

/-- C10: a declaration whose attached documentation string is the empty
string renders as its header alone, identically to a declaration with no
documentation at all: `normalize_docstring` maps the empty string to `none`,
and the orchestrator's truthiness test bypasses the docstring wrapper for
both the empty and the absent docstring — for top-level functions, for class
declarations (whose own block is the class header alone, followed as usual by
the separate method blocks), and for methods. -/
theorem empty_docstring_renders_header_alone (source_lines : List (List Char))
    (n : Nat) (b : List PyStmt) (i : Nat) :
    normalize_docstring [] i = none ∧
    processStmt source_lines (PyStmt.functionDef n (some []) b) =
      [get_signature source_lines n 0] ∧
    processStmt source_lines (PyStmt.functionDef n (some []) b) =
      processStmt source_lines (PyStmt.functionDef n none b) ∧
    processStmt source_lines (PyStmt.classDef n (some []) b) =
      get_signature source_lines n 0 ::
        b.flatMap (processClassItem source_lines) ∧
    processStmt source_lines (PyStmt.classDef n (some []) b) =
      processStmt source_lines (PyStmt.classDef n none b) ∧
    processClassItem source_lines (PyStmt.functionDef n (some []) b) =
      [get_signature source_lines n 4] ∧
    processClassItem source_lines (PyStmt.functionDef n (some []) b) =
      processClassItem source_lines (PyStmt.functionDef n none b) := by
  exact ⟨rfl, rfl, rfl, rfl, rfl, rfl, rfl⟩

end FilesToPrompt
